import Mathlib

/-!
Verification of the reward-accrual subsystem of burrowland
(`contract/src/asset_farm.rs`).

The Rust source is shallowly embedded: `HashMap` / `LookupMap` containers
become association lists (their key sets are unique by construction in the
source, which appears as `Nodup` hypotheses where a proof needs it), `u128`
and `u64` quantities become `Nat`, and the per-execution environment
(`env::block_timestamp()`, the process-wide `ASSET_FARMS` cache) is passed
explicitly.  A Rust panic (checked-arithmetic underflow, `unwrap` on a
missing farm) is modelled as `none`.
-/

namespace Burrowland

/-- Token identifier; `TokenId = AccountId` (a string) in the source. -/
abbrev TokenId := String

/-- `near_sdk::Balance` (`u128`). -/
abbrev Balance := Nat

/-- `near_sdk::Timestamp` (`u64` nanoseconds). -/
abbrev Timestamp := Nat

/-- `Duration` (`u64` nanoseconds). -/
abbrev Duration := Nat

/-- Modelled from the spec: `BigDecimal` (defined in `big_decimal.rs`, which is
outside the provided sources) is the "arbitrary-precision (non-integer)
accumulator" used for `reward_per_share`; it is modelled as the rationals. -/
abbrev BigDecimal := Rat

/-- Modelled from the spec: `u128_ratio a b c` (defined in `utils.rs`, outside
the provided sources) "computes `a*b/c` without intermediate overflow (must
widen before multiplying)", truncating the division.  On `Nat` the widened
product is exact. -/
def u128_ratio (a b c : Nat) : Nat := a * b / c

/-- `NANOS_PER_DAY` constant from the source. -/
def NANOS_PER_DAY : Duration := 24 * 60 * 60 * 10 ^ 9

/-- Farm identifier: supplied or borrowed exposure of an underlying asset. -/
inductive FarmId
  | Supplied : TokenId → FarmId
  | Borrowed : TokenId → FarmId
deriving DecidableEq

/-- `AssetFarmReward` with its five source fields, in declaration order. -/
structure AssetFarmReward where
  reward_per_day : Balance
  booster_log_base : Balance
  remaining_rewards : Balance
  boosted_shares : Balance
  reward_per_share : BigDecimal
deriving DecidableEq

/-- `VAssetFarmReward`: versioned envelope for a durably stored reward. -/
inductive VAssetFarmReward
  | Current : AssetFarmReward → VAssetFarmReward
deriving DecidableEq

/-- `impl From<VAssetFarmReward> for AssetFarmReward`. -/
def VAssetFarmReward.toReward : VAssetFarmReward → AssetFarmReward
  | .Current c => c

/-- `impl From<AssetFarmReward> for VAssetFarmReward`. -/
def AssetFarmReward.toV (c : AssetFarmReward) : VAssetFarmReward :=
  VAssetFarmReward.Current c

/-- Association-list lookup; model of `HashMap::get` / `LookupMap::get`. -/
def lookupKey {κ α : Type} [DecidableEq κ] : List (κ × α) → κ → Option α
  | [], _ => none
  | (k, v) :: rest, k' => if k' = k then some v else lookupKey rest k'

/-- Association-list insert-or-overwrite; model of `HashMap::insert` /
`LookupMap::insert`. -/
def insertKey {κ α : Type} [DecidableEq κ] (l : List (κ × α)) (k : κ) (v : α) :
    List (κ × α) :=
  (k, v) :: l.filter (fun p => decide (p.1 ≠ k))

/-- `AssetFarm`: the per-farm reward snapshot.  `rewards` is the active
`HashMap<TokenId, AssetFarmReward>`; `inactive_rewards` is the durable
`LookupMap<TokenId, VAssetFarmReward>`. -/
structure AssetFarm where
  block_timestamp : Timestamp
  rewards : List (TokenId × AssetFarmReward)
  inactive_rewards : List (TokenId × VAssetFarmReward)
deriving DecidableEq

/-- The source's `HashMap` cannot hold duplicate keys; an `AssetFarm` embedded
as association lists is well-formed when its active reward keys are distinct. -/
def WFRewards (f : AssetFarm) : Prop := (f.rewards.map Prod.fst).Nodup

instance (f : AssetFarm) : Decidable (WFRewards f) := by
  unfold WFRewards; infer_instance

/-- `AssetFarm::internal_get_inactive_asset_farm_reward`. -/
def AssetFarm.internal_get_inactive_asset_farm_reward (self : AssetFarm)
    (token_id : TokenId) : Option AssetFarmReward :=
  (lookupKey self.inactive_rewards token_id).map VAssetFarmReward.toReward

/-- `AssetFarm::internal_remove_inactive_asset_farm_reward`. -/
def AssetFarm.internal_remove_inactive_asset_farm_reward (self : AssetFarm)
    (token_id : TokenId) : Option AssetFarmReward × AssetFarm :=
  ((lookupKey self.inactive_rewards token_id).map VAssetFarmReward.toReward,
   { self with inactive_rewards :=
      self.inactive_rewards.filter (fun p => decide (p.1 ≠ token_id)) })

/-- `AssetFarm::internal_set_inactive_asset_farm_reward`. -/
def AssetFarm.internal_set_inactive_asset_farm_reward (self : AssetFarm)
    (token_id : TokenId) (asset_farm_reward : AssetFarmReward) : AssetFarm :=
  { self with inactive_rewards :=
      insertKey self.inactive_rewards token_id asset_farm_reward.toV }

/-- Body of the per-token `for` loop of `AssetFarm::update`: a reward with
`boosted_shares == 0` is skipped (`continue`); otherwise `acquired_rewards`
is clamped to `remaining_rewards`, subtracted from it, and credited to the
`reward_per_share` accumulator. -/
def updateReward (time_diff : Duration) (reward : AssetFarmReward) :
    AssetFarmReward :=
  if reward.boosted_shares = 0 then reward
  else
    let acquired_rewards :=
      min reward.remaining_rewards
        ( u128_ratio reward.reward_per_day time_diff NANOS_PER_DAY)
    { reward with
      remaining_rewards := reward.remaining_rewards - acquired_rewards
      reward_per_share := reward.reward_per_share +
        (acquired_rewards : BigDecimal) / (reward.boosted_shares : BigDecimal) }

/-- The `new_inactive_reward` push condition of `AssetFarm::update`: the token
is marked inside the `boosted_shares != 0` branch when, after the mutation,
`remaining_rewards == 0`. -/
def retiredP (p : TokenId × AssetFarmReward) : Bool :=
  p.2.boosted_shares != 0 && p.2.remaining_rewards == 0

/-- The active reward map after the first (mutating) loop of
`AssetFarm::update`: every entry rewritten in place by `updateReward`. -/
def postRewards (self : AssetFarm) (now : Timestamp) :
    List (TokenId × AssetFarmReward) :=
  self.rewards.map (fun p => (p.1, updateReward (now - self.block_timestamp) p.2))

/-- `AssetFarm::update` past the early return and the underflow check:
`block_timestamp` is set to `now`; the first loop rewrites every active
reward (`postRewards`); the second loop removes each token marked by
`retiredP` from the active map and inserts its (already updated) record into
`inactive_rewards` through `internal_set_inactive_asset_farm_reward`. -/
def AssetFarm.updateBody (self : AssetFarm) (now : Timestamp) : AssetFarm :=
  { block_timestamp := now
    rewards := (postRewards self now).filter (fun p => !(retiredP p))
    inactive_rewards :=
      ((postRewards self now).filter retiredP).foldl
        (fun ir p => insertKey ir p.1 (AssetFarmReward.toV p.2))
        self.inactive_rewards }

/-- `AssetFarm::update`.  `now` is `env::block_timestamp()`, constant for the
whole execution.  If `now == self.block_timestamp` the function returns
immediately; the `u64` subtraction `now - self.block_timestamp` is checked
(the contract is built with overflow checks, per the spec's
"fails with an underflow/ordering error if now < block_timestamp"), so a call
with `now < self.block_timestamp` aborts, modelled as `none`. -/
def AssetFarm.update (self : AssetFarm) (now : Timestamp) : Option AssetFarm :=
  if now = self.block_timestamp then some self
  else if now < self.block_timestamp then none
  else some (self.updateBody now)

/-- `VAssetFarm`: versioned envelope for the durable farm record. -/
inductive VAssetFarm
  | Current : AssetFarm → VAssetFarm
deriving DecidableEq

/-- `impl From<VAssetFarm> for AssetFarm`. -/
def VAssetFarm.toFarm : VAssetFarm → AssetFarm
  | .Current c => c

/-- `impl From<AssetFarm> for VAssetFarm`. -/
def AssetFarm.toV (c : AssetFarm) : VAssetFarm := VAssetFarm.Current c

/-- The contract state the farm registry needs: the durable
`asset_farms: LookupMap<FarmId, VAssetFarm>` and the externally-owned ordered
index `asset_ids` of underlying asset ids. -/
structure Contract where
  asset_farms : List (FarmId × VAssetFarm)
  asset_ids : List TokenId
deriving DecidableEq

/-- The process-wide `ASSET_FARMS` cache: `HashMap<FarmId, Option<AssetFarm>>`,
fresh (empty) at the start of each execution. -/
abbrev Cache := List (FarmId × Option AssetFarm)

/-- `Contract::internal_get_asset_farm`.  On a cache hit the cached clone is
returned unchanged; on a miss the durable record is loaded, unwrapped from its
envelope, advanced by `AssetFarm::update` (a panic there aborts the execution:
outer `none`), and the result — including the not-found case — is inserted
into the cache. -/
def internal_get_asset_farm (now : Timestamp) (self : Contract)
    (farm_id : FarmId) (cache : Cache) : Option (Option AssetFarm × Cache) :=
  match lookupKey cache farm_id with
  | some v => some (v, cache)
  | none =>
    match lookupKey self.asset_farms farm_id with
    | none => some (none, insertKey cache farm_id none)
    | some v =>
      match (VAssetFarm.toFarm v).update now with
      | none => none
      | some asset_farm =>
        some (some asset_farm, insertKey cache farm_id (some asset_farm))

/-- `Contract::internal_unwrap_asset_farm`: as `internal_get_asset_farm` but a
missing farm is a fatal precondition violation (`expect`), modelled as `none`. -/
def internal_unwrap_asset_farm (now : Timestamp) (self : Contract)
    (farm_id : FarmId) (cache : Cache) : Option (AssetFarm × Cache) :=
  match internal_get_asset_farm now self farm_id cache with
  | none => none
  | some (none, _) => none
  | some (some farm, cache1) => some (farm, cache1)

/-- `Contract::internal_set_asset_farm`: writes the snapshot to the cache and,
wrapped in the `VAssetFarm` envelope, to the durable registry. -/
def internal_set_asset_farm (self : Contract) (farm_id : FarmId)
    (asset_farm : AssetFarm) (cache : Cache) : Contract × Cache :=
  ({ self with asset_farms := insertKey self.asset_farms farm_id asset_farm.toV },
   insertKey cache farm_id (some asset_farm))

/-- `Contract::get_asset_farms`: resolves each farm id through
`internal_get_asset_farm` in order, silently dropping ids that resolve to
`None` (`filter_map`). -/
def get_asset_farms (now : Timestamp) (self : Contract) :
    List FarmId → Cache → Option (List (FarmId × AssetFarm) × Cache)
  | [], cache => some ([], cache)
  | farm_id :: rest, cache =>
    match internal_get_asset_farm now self farm_id cache with
    | none => none
    | some (none, cache1) => get_asset_farms now self rest cache1
    | some (some farm, cache1) =>
      (get_asset_farms now self rest cache1).map
        (fun p => ((farm_id, farm) :: p.1, p.2))

/-- The farm-id enumeration of `Contract::get_asset_farms_paged`: indices run
over `from_index..min(keys.len(), limit)` (the source's loop bound), each
underlying asset id expanding to a `Supplied` and a `Borrowed` farm id.  The
`keys.get(index).unwrap()` cannot fail on this range; an out-of-range index
would contribute nothing. -/
def pagedFarmIds (asset_ids : List TokenId) (from_index limit : Option Nat) :
    List FarmId :=
  let fi := from_index.getD 0
  let li := limit.getD asset_ids.length
  ((List.range (min asset_ids.length li)).drop fi).flatMap
    (fun index =>
      match asset_ids.get? index with
      | some token_id => [FarmId.Supplied token_id, FarmId.Borrowed token_id]
      | none => [])

/-- `Contract::get_asset_farms_paged`. -/
def get_asset_farms_paged (now : Timestamp) (self : Contract)
    (from_index limit : Option Nat) (cache : Cache) :
    Option (List (FarmId × AssetFarm) × Cache) :=
  get_asset_farms now self (pagedFarmIds self.asset_ids from_index limit) cache

/-- The `acquired_rewards` value the update loop computes for one reward
record: 0 for a skipped (`boosted_shares == 0`) reward, otherwise the clamped
budget for the elapsed period. -/
def stepAcquired (time_diff : Duration) (r : AssetFarmReward) : Nat :=
  if r.boosted_shares = 0 then 0
  else min r.remaining_rewards
    ( u128_ratio r.reward_per_day time_diff NANOS_PER_DAY)

/-- The amount a call `f.update now` acquires for token `tid` (0 when the
token has no active reward). -/
def callAcquired (f : AssetFarm) (now : Timestamp) (tid : TokenId) : Nat :=
  match lookupKey f.rewards tid with
  | some r => stepAcquired (now - f.block_timestamp) r
  | none => 0

/-- The reward record for `tid` wherever it currently lives: the active map
first, else the inactive map. -/
def recordOf (f : AssetFarm) (tid : TokenId) : Option AssetFarmReward :=
  match lookupKey f.rewards tid with
  | some r => some r
  | none => f.internal_get_inactive_asset_farm_reward tid

/-- The remaining budget recorded for `tid` (0 when the token is unknown). -/
def remainingOf (f : AssetFarm) (tid : TokenId) : Nat :=
  match recordOf f tid with
  | some r => r.remaining_rewards
  | none => 0

/-- A sequence of `AssetFarm::update` calls at the given timestamps,
accumulating the total amount acquired for token `tid`; `none` when any call
aborts. -/
def runAcquired (tid : TokenId) : List Timestamp → AssetFarm → Option (AssetFarm × Nat)
  | [], f => some (f, 0)
  | t :: ts, f =>
    match f.update t with
    | none => none
    | some f1 =>
      (runAcquired tid ts f1).map (fun p => (p.1, callAcquired f t tid + p.2))

/-- Whether a call to `internal_get_asset_farm` from cache state `st` runs the
accrual side effect (`AssetFarm::update`): exactly on a cache miss whose
durable lookup succeeds. -/
def updateRan (c : Contract) (fid : FarmId) (st : Cache) : Bool :=
  (lookupKey st fid).isNone && (lookupKey c.asset_farms fid).isSome

/-- A sequence of `internal_get_asset_farm` requests within one execution,
recording the farm ids for which the accrual side effect ran. -/
def runGets (now : Timestamp) (c : Contract) :
    List FarmId → Cache → Option (Cache × List FarmId)
  | [], st => some (st, [])
  | fid :: rest, st =>
    match internal_get_asset_farm now c fid st with
    | none => none
    | some (_, st1) =>
      (runGets now c rest st1).map
        (fun p => (p.1, if updateRan c fid st then fid :: p.2 else p.2))

/-- The field list `derive(BorshSerialize)` writes for `AssetFarmReward` — the
durable (persisted) shape of a reward record.  The source declares no
`borsh_skip` attribute, so every field, `reward_per_share` included, is
written in declaration order. -/
structure BorshAssetFarmReward where
  reward_per_day : Balance
  booster_log_base : Balance
  remaining_rewards : Balance
  boosted_shares : Balance
  reward_per_share : BigDecimal
deriving DecidableEq

/-- Borsh-persisted shape of a reward record. -/
def AssetFarmReward.toBorsh (r : AssetFarmReward) : BorshAssetFarmReward :=
  ⟨r.reward_per_day, r.booster_log_base, r.remaining_rewards,
   r.boosted_shares, r.reward_per_share⟩

/-- Borsh-persisted payload of the versioned envelope that
`internal_set_inactive_asset_farm_reward` stores durably (the enum tag is
constant, so the payload is the whole information content). -/
def VAssetFarmReward.toBorsh : VAssetFarmReward → BorshAssetFarmReward
  | .Current c => c.toBorsh

/-- The field list serde `Serialize` writes for `AssetFarmReward` (the JSON
view): `reward_per_share` carries `#[serde(skip)]` and is omitted. -/
structure SerdeAssetFarmReward where
  reward_per_day : Balance
  booster_log_base : Balance
  remaining_rewards : Balance
  boosted_shares : Balance
deriving DecidableEq

/-- Serde (view) shape of a reward record. -/
def AssetFarmReward.toSerde (r : AssetFarmReward) : SerdeAssetFarmReward :=
  ⟨r.reward_per_day, r.booster_log_base, r.remaining_rewards, r.boosted_shares⟩

/-! ### Concrete fixtures used to evaluate the definitions -/

def tkn : TokenId := "tk"

def tkOld : TokenId := "old"

def ga : TokenId := "a"

def gb : TokenId := "b"

def gc : TokenId := "c"

def wR2 : AssetFarmReward := ⟨5, 7, 100, 4, 0⟩

def wFarm2 : AssetFarm := ⟨0, [(tkn, wR2)], []⟩

def wR3 : AssetFarmReward := ⟨10, 0, 25, 0, 0⟩

def wFarm3 : AssetFarm := ⟨0, [(tkn, wR3)], []⟩

def wEnd3 : AssetFarm := ⟨NANOS_PER_DAY, [(tkn, wR3)], []⟩

def wR4 : AssetFarmReward := ⟨0, 3, 0, 2, 0⟩

def wFarm4 : AssetFarm := ⟨0, [(tkn, wR4)], []⟩

def wR8 : AssetFarmReward := ⟨9, 1, 50, 0, 0⟩

def wFarm8 : AssetFarm :=
  ⟨3, [(tkn, wR8)], [(tkOld, VAssetFarmReward.Current ⟨1, 1, 0, 1, 0⟩)]⟩

def wR10 : AssetFarmReward := ⟨4, 2, 0, 0, 0⟩

def wFarm10 : AssetFarm := ⟨0, [(tkn, wR10)], []⟩

def wFarm9 : AssetFarm := ⟨3, [], []⟩

def wFarm7 : AssetFarm := ⟨5, [], []⟩

def cFarm : AssetFarm := ⟨0, [], []⟩

def cid : FarmId := FarmId.Supplied ga

def cContract : Contract := ⟨[(cid, VAssetFarm.Current cFarm)], [ga]⟩

def r5a : AssetFarmReward := ⟨1, 2, 3, 4, 0⟩

def r5b : AssetFarmReward := ⟨1, 2, 3, 4, 1⟩

def pFarm : AssetFarm := ⟨0, [], []⟩

def pContract : Contract :=
  ⟨[(FarmId.Supplied ga, VAssetFarm.Current pFarm),
    (FarmId.Borrowed ga, VAssetFarm.Current pFarm),
    (FarmId.Supplied gb, VAssetFarm.Current pFarm),
    (FarmId.Borrowed gb, VAssetFarm.Current pFarm),
    (FarmId.Supplied gc, VAssetFarm.Current pFarm),
    (FarmId.Borrowed gc, VAssetFarm.Current pFarm)],
   [ga, gb, gc]⟩

/-! ### Association-list lemmas -/

section AssocLemmas

variable {κ α β : Type}

theorem lookupKey_eq_none_iff [DecidableEq κ] (l : List (κ × α)) (k : κ) :
    lookupKey l k = none ↔ k ∉ l.map Prod.fst := by
  induction l with
  | nil => simp [lookupKey]
  | cons p rest ih =>
    obtain ⟨k0, v0⟩ := p
    by_cases h : k = k0
    · subst h; simp [lookupKey]
    · simp [lookupKey, h, ih]

theorem lookupKey_mem [DecidableEq κ] {l : List (κ × α)} {k : κ} {v : α}
    (h : lookupKey l k = some v) : (k, v) ∈ l := by
  induction l with
  | nil => simp [lookupKey] at h
  | cons p rest ih =>
    obtain ⟨k0, v0⟩ := p
    by_cases hk : k = k0
    · subst hk
      simp [lookupKey] at h
      subst h
      exact List.mem_cons_self _ _
    · simp [lookupKey, hk] at h
      exact List.mem_cons_of_mem _ (ih h)

theorem lookupKey_of_mem_nodup [DecidableEq κ] {l : List (κ × α)} {k : κ} {v : α}
    (hnd : (l.map Prod.fst).Nodup) (h : (k, v) ∈ l) : lookupKey l k = some v := by
  induction l with
  | nil => simp at h
  | cons p rest ih =>
    obtain ⟨k0, v0⟩ := p
    rw [List.map_cons, List.nodup_cons] at hnd
    rcases List.mem_cons.mp h with h1 | h1
    · obtain ⟨h2, h3⟩ := Prod.mk.injEq .. |>.mp h1
      subst h2; subst h3
      simp [lookupKey]
    · have hk : k ≠ k0 := by
        intro hkk
        subst hkk
        exact hnd.1 (List.mem_map.mpr ⟨(k, v), h1, rfl⟩)
      simp [lookupKey, hk]
      exact ih hnd.2 h1

theorem lookupKey_map_value [DecidableEq κ] (g : α → β) (l : List (κ × α)) (k : κ) :
    lookupKey (l.map (fun p => (p.1, g p.2))) k = (lookupKey l k).map g := by
  induction l with
  | nil => simp [lookupKey]
  | cons p rest ih =>
    obtain ⟨k0, v0⟩ := p
    by_cases h : k = k0
    · subst h; simp [lookupKey]
    · simp [lookupKey, h, ih]

theorem keys_map_value (g : α → β) (l : List (κ × α)) :
    (l.map (fun p => (p.1, g p.2))).map Prod.fst = l.map Prod.fst := by
  induction l with
  | nil => rfl
  | cons p rest ih => simp [ih]

theorem lookupKey_filter_none [DecidableEq κ] (q : κ × α → Bool) {l : List (κ × α)} {k : κ}
    (h : lookupKey l k = none) : lookupKey (l.filter q) k = none := by
  induction l with
  | nil => simp [lookupKey]
  | cons p rest ih =>
    obtain ⟨k0, v0⟩ := p
    by_cases hk : k = k0
    · subst hk; simp [lookupKey] at h
    · simp [lookupKey, hk] at h
      by_cases hq : q (k0, v0)
      · simp [List.filter_cons, hq, lookupKey, hk]
        exact ih h
      · simp [List.filter_cons, hq]
        exact ih h

theorem lookupKey_filter_some [DecidableEq κ] (q : κ × α → Bool) {l : List (κ × α)} {k : κ} {v : α}
    (hnd : (l.map Prod.fst).Nodup) (h : lookupKey l k = some v) :
    lookupKey (l.filter q) k = if q (k, v) then some v else none := by
  induction l with
  | nil => simp [lookupKey] at h
  | cons p rest ih =>
    obtain ⟨k0, v0⟩ := p
    rw [List.map_cons, List.nodup_cons] at hnd
    by_cases hk : k = k0
    · subst hk
      simp [lookupKey] at h
      subst h
      have hnone : lookupKey rest k = none := by
        rw [lookupKey_eq_none_iff]
        exact hnd.1
      by_cases hq : q (k, v0)
      · simp [List.filter_cons, hq, lookupKey]
      · simp [List.filter_cons, hq]
        exact lookupKey_filter_none q hnone
    · simp [lookupKey, hk] at h
      by_cases hq : q (k0, v0)
      · simpa [List.filter_cons, hq, lookupKey, hk] using ih hnd.2 h
      · simpa [List.filter_cons, hq] using ih hnd.2 h

theorem keys_filter_nodup (q : κ × α → Bool) {l : List (κ × α)}
    (hnd : (l.map Prod.fst).Nodup) : ((l.filter q).map Prod.fst).Nodup :=
  hnd.sublist (List.Sublist.map Prod.fst (List.filter_sublist l))

theorem lookupKey_insert_self [DecidableEq κ] (l : List (κ × α)) (k : κ) (v : α) :
    lookupKey (insertKey l k v) k = some v := by
  simp [insertKey, lookupKey]

theorem lookupKey_filter_out_ne [DecidableEq κ] {l : List (κ × α)} {k k' : κ}
    (h : k' ≠ k) :
    lookupKey (l.filter (fun p => decide (p.1 ≠ k))) k' = lookupKey l k' := by
  induction l with
  | nil => rfl
  | cons p rest ih =>
    obtain ⟨k0, v0⟩ := p
    rw [List.filter_cons]
    by_cases h0 : k0 = k
    · have hc : (decide ((k0, v0).1 ≠ k)) = false := by simp [h0]
      rw [hc]
      simp only [Bool.false_eq_true, if_false]
      rw [ih]
      have hk0 : k' ≠ k0 := fun he => h (he.trans h0)
      simp [lookupKey, hk0]
    · have hc : (decide ((k0, v0).1 ≠ k)) = true := by simp [h0]
      rw [hc]
      simp only [if_true]
      by_cases hk : k' = k0
      · subst hk
        simp [lookupKey]
      · simp only [lookupKey, if_neg hk]
        exact ih

theorem lookupKey_insert_ne [DecidableEq κ] (l : List (κ × α)) (k : κ) (v : α) {k' : κ}
    (h : k' ≠ k) : lookupKey (insertKey l k v) k' = lookupKey l k' := by
  simp only [insertKey, lookupKey, if_neg h]
  exact lookupKey_filter_out_ne h

theorem lookupKey_foldl_insert_not_mem [DecidableEq κ] (g : α → β) (ms : List (κ × α))
    (l0 : List (κ × β)) (k : κ) (h : k ∉ ms.map Prod.fst) :
    lookupKey (ms.foldl (fun ac p => insertKey ac p.1 (g p.2)) l0) k =
      lookupKey l0 k := by
  induction ms generalizing l0 with
  | nil => rfl
  | cons p rest ih =>
    rw [List.map_cons, List.mem_cons] at h
    have h1 : k ≠ p.1 := fun hk => h (Or.inl hk)
    have h2 : k ∉ rest.map Prod.fst := fun hk => h (Or.inr hk)
    rw [List.foldl_cons, ih _ h2]
    exact lookupKey_insert_ne _ _ _ h1

theorem lookupKey_foldl_insert_mem [DecidableEq κ] (g : α → β) {ms : List (κ × α)}
    (l0 : List (κ × β)) {k : κ} {v : α} (hnd : (ms.map Prod.fst).Nodup)
    (hm : (k, v) ∈ ms) :
    lookupKey (ms.foldl (fun ac p => insertKey ac p.1 (g p.2)) l0) k =
      some (g v) := by
  induction ms generalizing l0 with
  | nil => simp at hm
  | cons p rest ih =>
    obtain ⟨k0, v0⟩ := p
    rw [List.map_cons, List.nodup_cons] at hnd
    rcases List.mem_cons.mp hm with h1 | h1
    · obtain ⟨h2, h3⟩ := Prod.mk.injEq .. |>.mp h1
      subst h2; subst h3
      rw [List.foldl_cons]
      rw [lookupKey_foldl_insert_not_mem g rest _ k hnd.1]
      exact lookupKey_insert_self _ _ _
    · rw [List.foldl_cons]
      exact ih _ hnd.2 h1

theorem keys_insert_sub [DecidableEq κ] (l : List (κ × α)) (k : κ) (v : α) :
    ∀ k', k' ∈ (insertKey l k v).map Prod.fst → k' = k ∨ k' ∈ l.map Prod.fst := by
  intro k' h
  rcases List.mem_cons.mp h with h1 | h1
  · exact Or.inl h1
  · obtain ⟨q0, hq0, hq1⟩ := List.mem_map.mp h1
    exact Or.inr (List.mem_map.mpr ⟨q0, (List.mem_filter.mp hq0).1, hq1⟩)

end AssocLemmas

/-! ### Lemmas about `AssetFarm::update` -/

theorem updateReward_remaining (td : Duration) (r : AssetFarmReward) :
    (updateReward td r).remaining_rewards = r.remaining_rewards - stepAcquired td r := by
  unfold updateReward stepAcquired
  by_cases h : r.boosted_shares = 0 <;> simp [h]

theorem updateReward_boosted (td : Duration) (r : AssetFarmReward) :
    (updateReward td r).boosted_shares = r.boosted_shares := by
  unfold updateReward
  by_cases h : r.boosted_shares = 0 <;> simp [h]

theorem updateReward_log_base (td : Duration) (r : AssetFarmReward) :
    (updateReward td r).booster_log_base = r.booster_log_base := by
  unfold updateReward
  by_cases h : r.boosted_shares = 0 <;> simp [h]

theorem updateReward_per_day (td : Duration) (r : AssetFarmReward) :
    (updateReward td r).reward_per_day = r.reward_per_day := by
  unfold updateReward
  by_cases h : r.boosted_shares = 0 <;> simp [h]

theorem updateReward_of_ne {r : AssetFarmReward} (td : Duration)
    (h : r.boosted_shares ≠ 0) :
    updateReward td r =
      { r with
        remaining_rewards := r.remaining_rewards -
          min r.remaining_rewards
            ( u128_ratio r.reward_per_day td NANOS_PER_DAY)
        reward_per_share := r.reward_per_share +
          ((min r.remaining_rewards
            ( u128_ratio r.reward_per_day td NANOS_PER_DAY) : Nat) : BigDecimal) /
          (r.boosted_shares : BigDecimal) } := by
  simp [updateReward, h]

theorem updateReward_of_zero {r : AssetFarmReward} (td : Duration)
    (h : r.boosted_shares = 0) : updateReward td r = r := by
  simp [updateReward, h]

theorem stepAcquired_le (td : Duration) (r : AssetFarmReward) :
    stepAcquired td r ≤ r.remaining_rewards := by
  unfold stepAcquired
  by_cases h : r.boosted_shares = 0
  · simp [h]
  · simp only [h, if_false]
    exact min_le_left _ _

theorem stepAcquired_zero (r : AssetFarmReward) : stepAcquired 0 r = 0 := by
  unfold stepAcquired u128_ratio
  by_cases h : r.boosted_shares = 0 <;> simp [h]

theorem updateBody_block_timestamp (f : AssetFarm) (now : Timestamp) :
    (f.updateBody now).block_timestamp = now := rfl

theorem update_eq_some_iff (f : AssetFarm) (now : Timestamp) (f' : AssetFarm) :
    f.update now = some f' ↔
      ((now = f.block_timestamp ∧ f' = f) ∨
       (f.block_timestamp < now ∧ f' = f.updateBody now)) := by
  unfold AssetFarm.update
  by_cases h1 : now = f.block_timestamp
  · simp [h1, eq_comm]
  · by_cases h2 : now < f.block_timestamp
    · simp [h1, h2, Nat.lt_asymm h2]
    · have h3 : f.block_timestamp < now :=
        Nat.lt_of_le_of_ne (Nat.le_of_not_lt h2) (fun he => h1 he.symm)
      simp [h1, h2, h3, eq_comm]

theorem update_eq_none_iff (f : AssetFarm) (now : Timestamp) :
    f.update now = none ↔ now < f.block_timestamp := by
  unfold AssetFarm.update
  by_cases h1 : now = f.block_timestamp
  · simp [h1]
  · by_cases h2 : now < f.block_timestamp <;> simp [h1, h2]

theorem lookup_postRewards (f : AssetFarm) (now : Timestamp) (tid : TokenId) :
    lookupKey (postRewards f now) tid =
      (lookupKey f.rewards tid).map (updateReward (now - f.block_timestamp)) :=
  lookupKey_map_value _ _ _

theorem keys_postRewards (f : AssetFarm) (now : Timestamp) :
    (postRewards f now).map Prod.fst = f.rewards.map Prod.fst :=
  keys_map_value _ _

theorem keys_postRewards_nodup {f : AssetFarm} (now : Timestamp)
    (hwf : WFRewards f) : ((postRewards f now).map Prod.fst).Nodup := by
  rw [keys_postRewards]
  exact hwf

theorem lookup_body_rewards {f : AssetFarm} {tid : TokenId} {r : AssetFarmReward}
    (now : Timestamp) (hwf : WFRewards f) (h : lookupKey f.rewards tid = some r) :
    lookupKey (f.updateBody now).rewards tid =
      if retiredP (tid, updateReward (now - f.block_timestamp) r) = true then none
      else some (updateReward (now - f.block_timestamp) r) := by
  have h1 : lookupKey (postRewards f now) tid =
      some (updateReward (now - f.block_timestamp) r) := by
    rw [lookup_postRewards, h]
    rfl
  show lookupKey ((postRewards f now).filter (fun p => !(retiredP p))) tid = _
  rw [lookupKey_filter_some _ (keys_postRewards_nodup now hwf) h1]
  by_cases hq : retiredP (tid, updateReward (now - f.block_timestamp) r) = true <;>
    simp [hq]

theorem lookup_body_rewards_none {f : AssetFarm} {tid : TokenId}
    (now : Timestamp) (h : lookupKey f.rewards tid = none) :
    lookupKey (f.updateBody now).rewards tid = none := by
  apply lookupKey_filter_none
  rw [lookup_postRewards, h]
  rfl

theorem body_rewards_keys_sub {f : AssetFarm} {tid : TokenId} (now : Timestamp) :
    lookupKey f.rewards tid = none →
      lookupKey (f.updateBody now).rewards tid = none :=
  lookup_body_rewards_none now

theorem not_mem_retired_of_none {f : AssetFarm} {tid : TokenId} (now : Timestamp)
    (h : lookupKey (postRewards f now) tid = none) :
    tid ∉ ((postRewards f now).filter retiredP).map Prod.fst := by
  intro hmem
  obtain ⟨q0, hq0, hq1⟩ := List.mem_map.mp hmem
  have hq2 : q0 ∈ postRewards f now := List.mem_of_mem_filter hq0
  have : tid ∉ (postRewards f now).map Prod.fst :=
    (lookupKey_eq_none_iff _ _).mp h
  exact this (List.mem_map.mpr ⟨q0, hq2, hq1⟩)

theorem body_inactive_not_moved {f : AssetFarm} {tid : TokenId} (now : Timestamp)
    (hm : tid ∉ ((postRewards f now).filter retiredP).map Prod.fst) :
    (f.updateBody now).internal_get_inactive_asset_farm_reward tid =
      f.internal_get_inactive_asset_farm_reward tid := by
  unfold AssetFarm.internal_get_inactive_asset_farm_reward
  show ((lookupKey (((postRewards f now).filter retiredP).foldl
    (fun ir p => insertKey ir p.1 (AssetFarmReward.toV p.2))
    f.inactive_rewards) tid).map VAssetFarmReward.toReward) = _
  rw [lookupKey_foldl_insert_not_mem]
  exact hm

theorem body_inactive_absent {f : AssetFarm} {tid : TokenId} (now : Timestamp)
    (h : lookupKey f.rewards tid = none) :
    (f.updateBody now).internal_get_inactive_asset_farm_reward tid =
      f.internal_get_inactive_asset_farm_reward tid :=
  body_inactive_not_moved now
    (not_mem_retired_of_none now (by rw [lookup_postRewards, h]; rfl))

theorem body_inactive_not_retired {f : AssetFarm} {tid : TokenId}
    {r : AssetFarmReward} (now : Timestamp) (hwf : WFRewards f)
    (h : lookupKey f.rewards tid = some r)
    (hq : retiredP (tid, updateReward (now - f.block_timestamp) r) = false) :
    (f.updateBody now).internal_get_inactive_asset_farm_reward tid =
      f.internal_get_inactive_asset_farm_reward tid := by
  unfold AssetFarm.internal_get_inactive_asset_farm_reward
  show ((lookupKey (((postRewards f now).filter retiredP).foldl
    (fun ir p => insertKey ir p.1 (AssetFarmReward.toV p.2))
    f.inactive_rewards) tid).map VAssetFarmReward.toReward) = _
  rw [lookupKey_foldl_insert_not_mem]
  have h1 : lookupKey (postRewards f now) tid =
      some (updateReward (now - f.block_timestamp) r) := by
    rw [lookup_postRewards, h]
    rfl
  have h2 : lookupKey ((postRewards f now).filter retiredP) tid = none := by
    rw [lookupKey_filter_some _ (keys_postRewards_nodup now hwf) h1, hq]
    simp
  exact (lookupKey_eq_none_iff _ _).mp h2

theorem body_inactive_retired {f : AssetFarm} {tid : TokenId}
    {r : AssetFarmReward} (now : Timestamp) (hwf : WFRewards f)
    (h : lookupKey f.rewards tid = some r)
    (hq : retiredP (tid, updateReward (now - f.block_timestamp) r) = true) :
    (f.updateBody now).internal_get_inactive_asset_farm_reward tid =
      some (updateReward (now - f.block_timestamp) r) := by
  unfold AssetFarm.internal_get_inactive_asset_farm_reward
  have h1 : lookupKey (postRewards f now) tid =
      some (updateReward (now - f.block_timestamp) r) := by
    rw [lookup_postRewards, h]
    rfl
  have h2 : lookupKey ((postRewards f now).filter retiredP) tid =
      some (updateReward (now - f.block_timestamp) r) := by
    rw [lookupKey_filter_some _ (keys_postRewards_nodup now hwf) h1, hq]
    simp
  have h3 : (tid, updateReward (now - f.block_timestamp) r) ∈
      (postRewards f now).filter retiredP := lookupKey_mem h2
  have h4 : (((postRewards f now).filter retiredP).map Prod.fst).Nodup :=
    keys_filter_nodup _ (keys_postRewards_nodup now hwf)
  show ((lookupKey (((postRewards f now).filter retiredP).foldl
    (fun ir p => insertKey ir p.1 (AssetFarmReward.toV p.2))
    f.inactive_rewards) tid).map VAssetFarmReward.toReward) = _
  rw [lookupKey_foldl_insert_mem _ _ h4 h3]
  rfl

theorem WFRewards_updateBody {f : AssetFarm} (now : Timestamp)
    (hwf : WFRewards f) : WFRewards (f.updateBody now) :=
  keys_filter_nodup _ (keys_postRewards_nodup now hwf)

theorem WFRewards_update {f f' : AssetFarm} {now : Timestamp}
    (h : f.update now = some f') (hwf : WFRewards f) : WFRewards f' := by
  rcases (update_eq_some_iff f now f').mp h with ⟨_, rfl⟩ | ⟨_, rfl⟩
  · exact hwf
  · exact WFRewards_updateBody now hwf

theorem retiredP_remaining {tid : TokenId} {r : AssetFarmReward}
    (h : retiredP (tid, r) = true) : r.remaining_rewards = 0 := by
  simp [retiredP] at h
  exact h.2

theorem remainingOf_update_step {f f' : AssetFarm} {now : Timestamp}
    (tid : TokenId) (hwf : WFRewards f) (h : f.update now = some f') :
    remainingOf f' tid + callAcquired f now tid = remainingOf f tid := by
  rcases (update_eq_some_iff f now f').mp h with ⟨h1, h2⟩ | ⟨h1, h2⟩ <;> rw [h2]
  · unfold callAcquired
    cases hl : lookupKey f.rewards tid with
    | none => simp
    | some r =>
      dsimp only
      rw [h1, Nat.sub_self, stepAcquired_zero]
      simp
  · unfold callAcquired remainingOf recordOf
    cases hl : lookupKey f.rewards tid with
    | none =>
      rw [lookup_body_rewards_none now hl, body_inactive_absent now hl]
      simp
    | some r =>
      rw [lookup_body_rewards now hwf hl]
      have hrem : (updateReward (now - f.block_timestamp) r).remaining_rewards =
          r.remaining_rewards - stepAcquired (now - f.block_timestamp) r :=
        updateReward_remaining _ _
      by_cases hq : retiredP (tid, updateReward (now - f.block_timestamp) r) = true
      · rw [if_pos hq, body_inactive_retired now hwf hl hq]
        have h0 : (updateReward (now - f.block_timestamp) r).remaining_rewards = 0 :=
          retiredP_remaining hq
        have h2 : stepAcquired (now - f.block_timestamp) r = r.remaining_rewards :=
          Nat.le_antisymm (stepAcquired_le _ _)
            (Nat.le_of_sub_eq_zero (hrem ▸ h0))
        simp [h0, h2]
      · rw [if_neg hq]
        simp only []
        rw [hrem]
        exact Nat.sub_add_cancel (stepAcquired_le _ _)

theorem runAcquired_spec (tid : TokenId) (times : List Timestamp) :
    ∀ f0 f_end : AssetFarm, ∀ total : Nat, WFRewards f0 →
      runAcquired tid times f0 = some (f_end, total) →
      total + remainingOf f_end tid = remainingOf f0 tid ∧ WFRewards f_end := by
  induction times with
  | nil =>
    intro f0 fe tot hwf h
    unfold runAcquired at h
    simp at h
    obtain ⟨h1, h2⟩ := h
    subst h1; subst h2
    simp [hwf]
  | cons t ts ih =>
    intro f0 fe tot hwf h
    unfold runAcquired at h
    cases hu : f0.update t with
    | none => rw [hu] at h; simp at h
    | some f1 =>
      rw [hu] at h
      dsimp only at h
      cases hr : runAcquired tid ts f1 with
      | none => rw [hr] at h; simp at h
      | some p =>
        rw [hr] at h
        simp at h
        obtain ⟨h1, h2⟩ := h
        have hwf1 : WFRewards f1 := WFRewards_update hu hwf
        obtain ⟨hA, hB⟩ := ih f1 p.1 p.2 hwf1 hr
        have hstep : remainingOf f1 tid + callAcquired f0 t tid = remainingOf f0 tid :=
          remainingOf_update_step tid hwf hu
        subst h1
        constructor
        · omega
        · exact hB

/-! ### Lemmas about the execution-scoped cache -/

theorem internal_get_cached_after {now : Timestamp} {c : Contract} {fid : FarmId}
    {st : Cache} {v : Option AssetFarm} {st1 : Cache}
    (h : internal_get_asset_farm now c fid st = some (v, st1)) :
    lookupKey st1 fid = some v := by
  unfold internal_get_asset_farm at h
  cases hst : lookupKey st fid with
  | some v0 =>
    rw [hst] at h
    simp at h
    obtain ⟨h1, h2⟩ := h
    rw [← h2, hst, h1]
  | none =>
    rw [hst] at h
    cases hdur : lookupKey c.asset_farms fid with
    | none =>
      rw [hdur] at h
      simp at h
      obtain ⟨h1, h2⟩ := h
      rw [← h2, ← h1]
      exact lookupKey_insert_self _ _ _
    | some dv =>
      rw [hdur] at h
      dsimp only at h
      cases hup : (VAssetFarm.toFarm dv).update now with
      | none => rw [hup] at h; simp at h
      | some af =>
        rw [hup] at h
        simp at h
        obtain ⟨h1, h2⟩ := h
        rw [← h2, ← h1]
        exact lookupKey_insert_self _ _ _

theorem internal_get_cache_preserve {now : Timestamp} {c : Contract}
    {fid : FarmId} {st : Cache} {v : Option AssetFarm} {st1 : Cache}
    (h : internal_get_asset_farm now c fid st = some (v, st1)) {g : FarmId}
    (hgn : lookupKey st1 g = none) : lookupKey st g = none := by
  by_cases hfid : g = fid
  · subst hfid
    rw [internal_get_cached_after h] at hgn
    simp at hgn
  · unfold internal_get_asset_farm at h
    cases hst : lookupKey st fid with
    | some v0 =>
      rw [hst] at h
      simp at h
      rw [h.2, hgn]
    | none =>
      rw [hst] at h
      cases hdur : lookupKey c.asset_farms fid with
      | none =>
        rw [hdur] at h
        simp at h
        rw [← lookupKey_insert_ne st fid none hfid, h.2, hgn]
      | some dv =>
        rw [hdur] at h
        dsimp only at h
        cases hup : (VAssetFarm.toFarm dv).update now with
        | none => rw [hup] at h; simp at h
        | some af =>
          rw [hup] at h
          simp at h
          rw [← lookupKey_insert_ne st fid (some af) hfid, h.2, hgn]

theorem updateRan_none {c : Contract} {fid : FarmId} {st : Cache}
    (h : updateRan c fid st = true) : lookupKey st fid = none := by
  unfold updateRan at h
  rw [Bool.and_eq_true] at h
  exact Option.isNone_iff_eq_none.mp h.1

theorem runGets_spec (now : Timestamp) (c : Contract) :
    ∀ reqs : List FarmId, ∀ st st' : Cache, ∀ ran : List FarmId,
      runGets now c reqs st = some (st', ran) →
      ran.Nodup ∧ ∀ fid ∈ ran, lookupKey st fid = none := by
  intro reqs
  induction reqs with
  | nil =>
    intro st st' ran h
    unfold runGets at h
    simp at h
    obtain ⟨h1, h2⟩ := h
    subst h2
    exact ⟨List.nodup_nil, by simp⟩
  | cons fid rest ih =>
    intro st st' ran h
    unfold runGets at h
    cases hg : internal_get_asset_farm now c fid st with
    | none => rw [hg] at h; simp at h
    | some pr =>
      obtain ⟨v, st1⟩ := pr
      rw [hg] at h
      dsimp only at h
      cases hr : runGets now c rest st1 with
      | none => rw [hr] at h; simp at h
      | some p =>
        obtain ⟨st2, ran2⟩ := p
        rw [hr] at h
        simp at h
        obtain ⟨h1, h2⟩ := h
        obtain ⟨ihn, ihl⟩ := ih st1 st2 ran2 hr
        by_cases hb : updateRan c fid st = true
        · rw [if_pos hb] at h2
          rw [← h2]
          constructor
          · rw [List.nodup_cons]
            refine ⟨fun hmem => ?_, ihn⟩
            have : lookupKey st1 fid = none := ihl fid hmem
            rw [internal_get_cached_after hg] at this
            simp at this
          · intro g hgmem
            rcases List.mem_cons.mp hgmem with hge | hge
            · rw [hge]
              exact updateRan_none hb
            · exact internal_get_cache_preserve hg (ihl g hge)
        · rw [if_neg hb] at h2
          rw [← h2]
          exact ⟨ihn, fun g hge => internal_get_cache_preserve hg (ihl g hge)⟩

/-! ### Claim theorems -/

/-- C7: No-op on repeated timestamp: when `now` equals the snapshot's
`block_timestamp`, `AssetFarm::update` leaves the snapshot entirely
unchanged; consequently running `update` twice at one fixed logical
timestamp produces exactly the same snapshot state as running it once. -/
theorem update_noop_repeated_timestamp (f : AssetFarm) (now : Timestamp) :
    (now = f.block_timestamp → f.update now = some f) ∧
    (f.update now).bind (fun g => g.update now) = f.update now := by
  constructor
  · intro h
    unfold AssetFarm.update
    rw [if_pos h]
  · by_cases h1 : now = f.block_timestamp
    · simp [AssetFarm.update, h1]
    · by_cases h2 : now < f.block_timestamp
      · unfold AssetFarm.update
        rw [if_neg h1, if_pos h2]
        rfl
      · unfold AssetFarm.update
        rw [if_neg h1, if_neg h2]
        have h3 : (f.updateBody now).block_timestamp = now :=
          updateBody_block_timestamp f now
        simp [h3]

/-- C7 witness: on a concrete snapshot whose `block_timestamp` already equals
`now`, `update` returns the snapshot unchanged, and on the same inputs the
double call equals the single call. -/
theorem update_noop_repeated_timestamp_witness :
    wFarm7.update 5 = some wFarm7 ∧
    (wFarm7.update 5).bind (fun g => g.update 5) = wFarm7.update 5 :=
  ⟨(update_noop_repeated_timestamp wFarm7 5).1 (by decide),
   (update_noop_repeated_timestamp wFarm7 5).2⟩

/-- C9: Time ordering violation: `AssetFarm::update` aborts (checked `u64`
underflow) exactly when `now` is strictly below the snapshot's
`block_timestamp` — it never clamps or wraps — and on every successful call
the resulting `block_timestamp` equals `now` and has not decreased. -/
theorem time_ordering_underflow (f : AssetFarm) (now : Timestamp) :
    (f.update now = none ↔ now < f.block_timestamp) ∧
    (∀ f', f.update now = some f' →
      f.block_timestamp ≤ f'.block_timestamp ∧ f'.block_timestamp = now) := by
  refine ⟨update_eq_none_iff f now, ?_⟩
  intro f' h
  rcases (update_eq_some_iff f now f').mp h with ⟨h1, h2⟩ | ⟨h1, h2⟩
  · rw [h2]
    exact ⟨Nat.le_refl _, h1.symm⟩
  · rw [h2, updateBody_block_timestamp]
    exact ⟨Nat.le_of_lt h1, rfl⟩

/-- C9 witness: a snapshot at timestamp 3 makes `update 2` abort, while
`update 5` succeeds and advances `block_timestamp` to 5. -/
theorem time_ordering_underflow_witness :
    wFarm9.update 2 = none ∧
    (wFarm9.block_timestamp ≤ (wFarm9.updateBody 5).block_timestamp ∧
      (wFarm9.updateBody 5).block_timestamp = 5) :=
  ⟨(time_ordering_underflow wFarm9 2).1.mpr (by decide),
   (time_ordering_underflow wFarm9 5).2 (wFarm9.updateBody 5) (by decide)⟩

/-- C8: Zero-share freeze: a reward whose `boosted_shares` is 0 when `update`
runs is left byte-for-byte unchanged (same `remaining_rewards`,
`reward_per_share`, `reward_per_day`, `booster_log_base`) no matter how much
logical time has elapsed, while the snapshot's `block_timestamp` is still
advanced to `now` unconditionally. -/
theorem zero_share_freeze (f : AssetFarm) (now : Timestamp) (tid : TokenId)
    (r : AssetFarmReward) (hwf : WFRewards f)
    (hr : lookupKey f.rewards tid = some r) (hb : r.boosted_shares = 0)
    (hts : f.block_timestamp ≤ now) :
    ∃ f', f.update now = some f' ∧ lookupKey f'.rewards tid = some r ∧
      f'.block_timestamp = now := by
  by_cases h1 : now = f.block_timestamp
  · refine ⟨f, ?_, hr, h1.symm⟩
    unfold AssetFarm.update
    rw [if_pos h1]
  · have h3 : f.block_timestamp < now :=
      Nat.lt_of_le_of_ne hts (fun he => h1 he.symm)
    refine ⟨f.updateBody now, ?_, ?_, updateBody_block_timestamp f now⟩
    · rw [update_eq_some_iff]
      exact Or.inr ⟨h3, rfl⟩
    · rw [lookup_body_rewards now hwf hr, updateReward_of_zero _ hb]
      have hq : retiredP (tid, r) = false := by simp [retiredP, hb]
      rw [hq]
      simp

/-- C8 witness: a zero-share reward at timestamp 3 survives `update 10`
unchanged while the snapshot timestamp advances to 10. -/
theorem zero_share_freeze_witness :
    (WFRewards wFarm8 ∧ lookupKey wFarm8.rewards tkn = some wR8 ∧
      wR8.boosted_shares = 0 ∧ wFarm8.block_timestamp ≤ 10) ∧
    (∃ f', wFarm8.update 10 = some f' ∧ lookupKey f'.rewards tkn = some wR8 ∧
      f'.block_timestamp = 10) :=
  ⟨⟨by decide, by decide, by decide, by decide⟩,
   zero_share_freeze wFarm8 10 tkn wR8 (by decide) (by decide) (by decide)
     (by decide)⟩

/-- C10: a reward with `boosted_shares = 0` is never retired by `update`,
even when its `remaining_rewards` is already 0: it stays in the active map
with the inactive map untouched at its key; and any token whose inactive
record changes during an `update` call had an active reward with
`boosted_shares > 0` in that pass. -/
theorem zero_share_not_retired (f : AssetFarm) (now : Timestamp) (tid : TokenId)
    (r : AssetFarmReward) (hwf : WFRewards f)
    (hr : lookupKey f.rewards tid = some r) (hb : r.boosted_shares = 0)
    (hts : f.block_timestamp ≤ now) :
    (∃ f', f.update now = some f' ∧ lookupKey f'.rewards tid = some r ∧
      f'.internal_get_inactive_asset_farm_reward tid =
        f.internal_get_inactive_asset_farm_reward tid) ∧
    (∀ g g' : AssetFarm, ∀ now2 : Timestamp, AssetFarm.update g now2 = some g' →
      ∀ t : TokenId,
        g'.internal_get_inactive_asset_farm_reward t ≠
          g.internal_get_inactive_asset_farm_reward t →
        ∃ rr, (t, rr) ∈ g.rewards ∧ 0 < rr.boosted_shares) := by
  constructor
  · by_cases h1 : now = f.block_timestamp
    · refine ⟨f, ?_, hr, rfl⟩
      unfold AssetFarm.update
      rw [if_pos h1]
    · have h3 : f.block_timestamp < now :=
        Nat.lt_of_le_of_ne hts (fun he => h1 he.symm)
      have hq : retiredP (tid, updateReward (now - f.block_timestamp) r) = false := by
        rw [updateReward_of_zero _ hb]
        simp [retiredP, hb]
      refine ⟨f.updateBody now, ?_, ?_, body_inactive_not_retired now hwf hr hq⟩
      · rw [update_eq_some_iff]
        exact Or.inr ⟨h3, rfl⟩
      · rw [lookup_body_rewards now hwf hr, hq, updateReward_of_zero _ hb]
        simp
  · intro g g' now2 hu t hne
    rcases (update_eq_some_iff g now2 g').mp hu with ⟨h1, h2⟩ | ⟨h1, h2⟩
    · rw [h2] at hne
      exact absurd rfl hne
    · rw [h2] at hne
      by_cases hm : t ∈ ((postRewards g now2).filter retiredP).map Prod.fst
      · obtain ⟨q0, hq0, hq1⟩ := List.mem_map.mp hm
        have hq2 := List.mem_filter.mp hq0
        obtain ⟨p0, hp0, hp1⟩ := List.mem_map.mp hq2.1
        have ht : t = p0.1 := by rw [← hq1, ← hp1]
        have hbq : q0.2.boosted_shares ≠ 0 := by
          have := hq2.2
          simp [retiredP] at this
          exact this.1
        have hbp : p0.2.boosted_shares ≠ 0 := by
          rw [← hp1] at hbq
          simpa [updateReward_boosted] using hbq
        refine ⟨p0.2, ?_, Nat.pos_of_ne_zero hbp⟩
        rw [ht, Prod.mk.eta]
        exact hp0
      · exact absurd (body_inactive_not_moved now2 hm) hne

/-- C10 witness: a reward with `boosted_shares = 0` and `remaining_rewards = 0`
remains active and unmoved across `update 7`. -/
theorem zero_share_not_retired_witness :
    (WFRewards wFarm10 ∧ lookupKey wFarm10.rewards tkn = some wR10 ∧
      wR10.boosted_shares = 0 ∧ wR10.remaining_rewards = 0 ∧
      wFarm10.block_timestamp ≤ 7) ∧
    (∃ f', wFarm10.update 7 = some f' ∧ lookupKey f'.rewards tkn = some wR10 ∧
      f'.internal_get_inactive_asset_farm_reward tkn =
        wFarm10.internal_get_inactive_asset_farm_reward tkn) :=
  ⟨⟨by decide, by decide, by decide, by decide, by decide⟩,
   (zero_share_not_retired wFarm10 7 tkn wR10 (by decide) (by decide)
     (by decide) (by decide)).1⟩

/-- C2: Single-step accrual: for a snapshot with `now > block_timestamp` and
an active reward with `boosted_shares > 0`, `update` computes
`acquired = min(remaining_rewards, reward_per_day * (now - block_timestamp)
/ NANOS_PER_DAY)` (truncating division on the exact widened product),
subtracts it from `remaining_rewards`, and adds `acquired / boosted_shares`
to `reward_per_share` in arbitrary (rational) precision; the resulting record
is what the farm then holds for the token. -/
theorem single_step_accrual (f : AssetFarm) (now : Timestamp) (tid : TokenId)
    (r : AssetFarmReward) (hwf : WFRewards f)
    (hr : lookupKey f.rewards tid = some r) (hts : f.block_timestamp < now)
    (hb : 0 < r.boosted_shares) :
    f.update now = some (f.updateBody now) ∧
    recordOf (f.updateBody now) tid =
      some { r with
        remaining_rewards := r.remaining_rewards -
          min r.remaining_rewards
            ( u128_ratio r.reward_per_day (now - f.block_timestamp) NANOS_PER_DAY)
        reward_per_share := r.reward_per_share +
          ((min r.remaining_rewards
            ( u128_ratio r.reward_per_day (now - f.block_timestamp)
              NANOS_PER_DAY) : Nat) : BigDecimal) /
          (r.boosted_shares : BigDecimal) } := by
  have hbne : r.boosted_shares ≠ 0 := Nat.pos_iff_ne_zero.mp hb
  have hEq := updateReward_of_ne (now - f.block_timestamp) hbne
  constructor
  · rw [update_eq_some_iff]
    exact Or.inr ⟨hts, rfl⟩
  · unfold recordOf
    by_cases hq : retiredP (tid, updateReward (now - f.block_timestamp) r) = true
    · rw [lookup_body_rewards now hwf hr, if_pos hq]
      dsimp only
      rw [body_inactive_retired now hwf hr hq, hEq]
    · rw [lookup_body_rewards now hwf hr, if_neg hq]
      dsimp only
      rw [hEq]

/-- C2 witness: a concrete farm with a positive-share reward satisfies all the
hypotheses of the single-step accrual theorem at `now = NANOS_PER_DAY`. -/
theorem single_step_accrual_witness :
    (WFRewards wFarm2 ∧ lookupKey wFarm2.rewards tkn = some wR2 ∧
      wFarm2.block_timestamp < NANOS_PER_DAY ∧ 0 < wR2.boosted_shares) ∧
    (wFarm2.update NANOS_PER_DAY = some (wFarm2.updateBody NANOS_PER_DAY) ∧
      recordOf (wFarm2.updateBody NANOS_PER_DAY) tkn =
        some { wR2 with
          remaining_rewards := wR2.remaining_rewards -
            min wR2.remaining_rewards
              ( u128_ratio wR2.reward_per_day
                (NANOS_PER_DAY - wFarm2.block_timestamp) NANOS_PER_DAY)
          reward_per_share := wR2.reward_per_share +
            ((min wR2.remaining_rewards
              ( u128_ratio wR2.reward_per_day
                (NANOS_PER_DAY - wFarm2.block_timestamp)
                NANOS_PER_DAY) : Nat) : BigDecimal) /
            (wR2.boosted_shares : BigDecimal) }) :=
  ⟨⟨by decide, by decide, by decide, by decide⟩,
   single_step_accrual wFarm2 NANOS_PER_DAY tkn wR2 (by decide) (by decide)
     (by decide) (by decide)⟩

/-- C4: Retirement transition: when an `update` pass (with
`boosted_shares > 0`) leaves a token's `remaining_rewards` at exactly 0, at
the end of that same call the token is absent from the active map and present
in `inactive_rewards` with the identical post-pass record (zero
`remaining_rewards`, unchanged `boosted_shares` and `booster_log_base`); and
`update` never moves a token from the inactive map back into the active map. -/
theorem retirement_transition (f : AssetFarm) (now : Timestamp) (tid : TokenId)
    (r : AssetFarmReward) (hwf : WFRewards f)
    (hr : lookupKey f.rewards tid = some r) (hb : 0 < r.boosted_shares)
    (hts : f.block_timestamp < now)
    (hzero : (updateReward (now - f.block_timestamp) r).remaining_rewards = 0) :
    f.update now = some (f.updateBody now) ∧
    lookupKey (f.updateBody now).rewards tid = none ∧
    (f.updateBody now).internal_get_inactive_asset_farm_reward tid =
      some (updateReward (now - f.block_timestamp) r) ∧
    (updateReward (now - f.block_timestamp) r).remaining_rewards = 0 ∧
    (updateReward (now - f.block_timestamp) r).boosted_shares =
      r.boosted_shares ∧
    (updateReward (now - f.block_timestamp) r).booster_log_base =
      r.booster_log_base ∧
    (∀ t : TokenId, lookupKey f.rewards t = none →
      lookupKey (f.updateBody now).rewards t = none) := by
  have hbne : r.boosted_shares ≠ 0 := Nat.pos_iff_ne_zero.mp hb
  have hq : retiredP (tid, updateReward (now - f.block_timestamp) r) = true := by
    simp [retiredP, hzero, updateReward_boosted, hbne]
  refine ⟨?_, ?_, body_inactive_retired now hwf hr hq, hzero,
    updateReward_boosted _ _, updateReward_log_base _ _, ?_⟩
  · rw [update_eq_some_iff]
    exact Or.inr ⟨hts, rfl⟩
  · rw [lookup_body_rewards now hwf hr, if_pos hq]
  · intro t ht
    exact lookup_body_rewards_none now ht

/-- C4 witness: a reward with positive shares and zero remaining budget is
retired by `update 5`: removed from the active map and stored unchanged in
the inactive map. -/
theorem retirement_transition_witness :
    (WFRewards wFarm4 ∧ lookupKey wFarm4.rewards tkn = some wR4 ∧
      0 < wR4.boosted_shares ∧ wFarm4.block_timestamp < 5 ∧
      (updateReward (5 - wFarm4.block_timestamp) wR4).remaining_rewards = 0) ∧
    (wFarm4.update 5 = some (wFarm4.updateBody 5) ∧
      lookupKey (wFarm4.updateBody 5).rewards tkn = none ∧
      (wFarm4.updateBody 5).internal_get_inactive_asset_farm_reward tkn =
        some (updateReward (5 - wFarm4.block_timestamp) wR4) ∧
      (updateReward (5 - wFarm4.block_timestamp) wR4).remaining_rewards = 0 ∧
      (updateReward (5 - wFarm4.block_timestamp) wR4).boosted_shares =
        wR4.boosted_shares ∧
      (updateReward (5 - wFarm4.block_timestamp) wR4).booster_log_base =
        wR4.booster_log_base ∧
      (∀ t : TokenId, lookupKey wFarm4.rewards t = none →
        lookupKey (wFarm4.updateBody 5).rewards t = none)) :=
  ⟨⟨by decide, by decide, by decide, by decide, by decide⟩,
   retirement_transition wFarm4 5 tkn wR4 (by decide) (by decide) (by decide)
     (by decide) (by decide)⟩

/-- C3: Conservation: across any finite sequence of `update` calls, the sum
of the amounts acquired for a token never exceeds the token's original
`remaining_rewards` (their sum plus the final remaining budget equals the
original budget exactly), `remaining_rewards` is non-increasing at every
step, and once the token's budget reaches 0 the total distributed equals the
original `remaining_rewards`. -/
theorem reward_conservation (tid : TokenId) (times : List Timestamp)
    (f0 f_end : AssetFarm) (total : Nat) (hwf : WFRewards f0)
    (hrun : runAcquired tid times f0 = some (f_end, total)) :
    total + remainingOf f_end tid = remainingOf f0 tid ∧
    total ≤ remainingOf f0 tid ∧
    (remainingOf f_end tid = 0 → total = remainingOf f0 tid) ∧
    (∀ g g' : AssetFarm, ∀ now : Timestamp, WFRewards g →
      AssetFarm.update g now = some g' →
      remainingOf g' tid ≤ remainingOf g tid) := by
  obtain ⟨hA, _⟩ := runAcquired_spec tid times f0 f_end total hwf hrun
  refine ⟨hA, by omega, by omega, ?_⟩
  intro g g' now hg hu
  have := remainingOf_update_step tid hg hu
  omega

/-- C3 witness: a one-call sequence on a concrete farm (zero shares, so zero
acquired) satisfies the conservation equation. -/
theorem reward_conservation_witness :
    (WFRewards wFarm3 ∧
      runAcquired tkn [NANOS_PER_DAY] wFarm3 = some (wEnd3, 0)) ∧
    (0 + remainingOf wEnd3 tkn = remainingOf wFarm3 tkn ∧
      0 ≤ remainingOf wFarm3 tkn ∧
      (remainingOf wEnd3 tkn = 0 → 0 = remainingOf wFarm3 tkn) ∧
      (∀ g g' : AssetFarm, ∀ now : Timestamp, WFRewards g →
        AssetFarm.update g now = some g' →
        remainingOf g' tkn ≤ remainingOf g tkn)) :=
  ⟨⟨by decide, by decide⟩,
   reward_conservation tkn [NANOS_PER_DAY] wFarm3 wEnd3 0 (by decide)
     (by decide)⟩

/-- C6: Cache consistency within one execution: two consecutive
`internal_get_asset_farm` calls for the same farm id with no intervening
write return the same snapshot (and the same cache state);
`internal_set_asset_farm` followed by `internal_get_asset_farm` returns
exactly the written snapshot, never a stale cached value; and across any
sequence of requests starting from the empty (execution-initial) cache, the
accrual side effect runs at most once per farm id. -/
theorem cache_consistency :
    (∀ now : Timestamp, ∀ c : Contract, ∀ fid : FarmId, ∀ st : Cache,
      ∀ v : Option AssetFarm, ∀ st' : Cache,
        internal_get_asset_farm now c fid st = some (v, st') →
        internal_get_asset_farm now c fid st' = some (v, st')) ∧
    (∀ now : Timestamp, ∀ c : Contract, ∀ fid : FarmId, ∀ farm : AssetFarm,
      ∀ st : Cache,
        internal_get_asset_farm now (internal_set_asset_farm c fid farm st).1
            fid (internal_set_asset_farm c fid farm st).2 =
          some (some farm, (internal_set_asset_farm c fid farm st).2)) ∧
    (∀ now : Timestamp, ∀ c : Contract, ∀ reqs : List FarmId, ∀ st' : Cache,
      ∀ ran : List FarmId,
        runGets now c reqs [] = some (st', ran) → ran.Nodup) := by
  refine ⟨?_, ?_, ?_⟩
  · intro now c fid st v st' h
    have hc := internal_get_cached_after h
    unfold internal_get_asset_farm
    rw [hc]
  · intro now c fid farm st
    unfold internal_get_asset_farm internal_set_asset_farm
    dsimp only
    rw [lookupKey_insert_self]
  · intro now c reqs st' ran h
    exact (runGets_spec now c reqs [] st' ran h).1

/-- C6 witness: on a concrete one-farm contract, a repeated read returns the
identical snapshot and cache, a write followed by a read returns the written
snapshot, and a request sequence hitting the same farm twice runs accrual
once. -/
theorem cache_consistency_witness :
    (internal_get_asset_farm 0 cContract cid [(cid, some cFarm)] =
        some (some cFarm, [(cid, some cFarm)])) ∧
    (internal_get_asset_farm 0 (internal_set_asset_farm cContract cid cFarm []).1
        cid (internal_set_asset_farm cContract cid cFarm []).2 =
      some (some cFarm, (internal_set_asset_farm cContract cid cFarm []).2)) ∧
    (runGets 0 cContract [cid, cid] [] =
        some ([(cid, some cFarm)], [cid]) ∧ List.Nodup [cid]) :=
  ⟨cache_consistency.1 0 cContract cid [] (some cFarm) [(cid, some cFarm)]
     (by decide),
   cache_consistency.2.1 0 cContract cid cFarm [],
   by decide,
   cache_consistency.2.2 0 cContract [cid, cid] [(cid, some cFarm)] [cid]
     (by decide)⟩

/-- C5 counterexample: the claim that the persisted form of a reward record
excludes `reward_per_share` fails on the source: `AssetFarmReward` derives
`BorshSerialize` with no `borsh_skip`, so two records identical in the four
integer fields but different in `reward_per_share` have different
borsh-persisted envelopes (while their serde view forms coincide). -/
theorem reward_per_share_persisted_cex :
    r5a.toSerde = r5b.toSerde ∧
    r5a.reward_per_day = r5b.reward_per_day ∧
    r5a.booster_log_base = r5b.booster_log_base ∧
    r5a.remaining_rewards = r5b.remaining_rewards ∧
    r5a.boosted_shares = r5b.boosted_shares ∧
    r5a.reward_per_share ≠ r5b.reward_per_share ∧
    (AssetFarmReward.toV r5a).toBorsh ≠ (AssetFarmReward.toV r5b).toBorsh := by
  refine ⟨by decide, by decide, by decide, by decide, by decide, ?_, ?_⟩
  · intro h
    have := congrArg Rat.num h
    simp [r5a, r5b] at this
  · intro h
    have := congrArg (fun b => b.reward_per_share.num)
      (h : (AssetFarmReward.toV r5a).toBorsh = (AssetFarmReward.toV r5b).toBorsh)
    simp [r5a, r5b, AssetFarmReward.toV, VAssetFarmReward.toBorsh,
      AssetFarmReward.toBorsh] at this

/-- C5 (amended): `reward_per_share` is excluded from the serde (JSON view)
serialization of a reward record, but the borsh durable form — the shape
stored by `internal_set_inactive_asset_farm_reward` through the versioned
envelope — includes it: records agreeing on the other four fields have equal
serde views, and differ in the persisted envelope exactly when their
`reward_per_share` differ. -/
theorem reward_per_share_view_only (r1 r2 : AssetFarmReward)
    (h1 : r1.reward_per_day = r2.reward_per_day)
    (h2 : r1.booster_log_base = r2.booster_log_base)
    (h3 : r1.remaining_rewards = r2.remaining_rewards)
    (h4 : r1.boosted_shares = r2.boosted_shares) :
    r1.toSerde = r2.toSerde ∧
    (r1.reward_per_share ≠ r2.reward_per_share →
      (AssetFarmReward.toV r1).toBorsh ≠ (AssetFarmReward.toV r2).toBorsh) := by
  constructor
  · unfold AssetFarmReward.toSerde
    rw [h1, h2, h3, h4]
  · intro h5 heq
    apply h5
    have := congrArg BorshAssetFarmReward.reward_per_share heq
    simpa [AssetFarmReward.toV, VAssetFarmReward.toBorsh,
      AssetFarmReward.toBorsh] using this

/-- C5 witness: two concrete records differing only in `reward_per_share`
share one serde view yet have distinct persisted envelopes. -/
theorem reward_per_share_view_only_witness :
    (r5a.reward_per_day = r5b.reward_per_day ∧
      r5a.booster_log_base = r5b.booster_log_base ∧
      r5a.remaining_rewards = r5b.remaining_rewards ∧
      r5a.boosted_shares = r5b.boosted_shares) ∧
    (r5a.toSerde = r5b.toSerde ∧
      (r5a.reward_per_share ≠ r5b.reward_per_share →
        (AssetFarmReward.toV r5a).toBorsh ≠ (AssetFarmReward.toV r5b).toBorsh)) :=
  ⟨⟨by decide, by decide, by decide, by decide⟩,
   reward_per_share_view_only r5a r5b (by decide) (by decide) (by decide)
     (by decide)⟩

/-- C1 (behavior at the failing input): over an index of 3 underlying assets
(all six farms configured), `get_asset_farms_paged(0, 2)` returns the four
farm ids of assets `a` and `b`, the documented continuation call
`get_asset_farms_paged(2, 2)` returns an empty page (the loop upper bound
`min(keys.len(), limit) = 2` is not above `from_index = 2`), so asset `c`'s
farms are never returned, while the single call `get_asset_farms_paged(0, 6)`
returns all six farm ids — refuting the claimed pagination continuation. -/
theorem pagination_continuation_exhibit :
    (get_asset_farms_paged 0 pContract (some 0) (some 2) []).map
        (fun p => p.1.map Prod.fst) =
      some [FarmId.Supplied ga, FarmId.Borrowed ga,
            FarmId.Supplied gb, FarmId.Borrowed gb] ∧
    (get_asset_farms_paged 0 pContract (some 0) (some 2) []).bind (fun p =>
      (get_asset_farms_paged 0 pContract (some 2) (some 2) p.2).map
        (fun q => q.1.map Prod.fst)) = some [] ∧
    (get_asset_farms_paged 0 pContract (some 0) (some 6) []).map
        (fun p => p.1.map Prod.fst) =
      some [FarmId.Supplied ga, FarmId.Borrowed ga,
            FarmId.Supplied gb, FarmId.Borrowed gb,
            FarmId.Supplied gc, FarmId.Borrowed gc] := by
  refine ⟨by decide, by decide, by decide⟩

end Burrowland
